import Mathlib

/-!
Shallow embedding of `src/fpgrowth.py` (FP-Growth frequent-itemset mining).

Modelling choices, faithful to the Python source:

* An FP-tree node is uniquely identified by its root-to-node item path, so the
  mutable pointer structure (`FPNode` with `parent` / `children` / `link`) is
  represented as an association list `PathTree` from root paths to counts, kept
  in node-creation order.  A new node is appended at the end, exactly as the
  Python code appends a freshly created node to the end of its item's
  header-link chain; consequently the header chain of an item is the sublist of
  entries whose path ends in that item, in list order.
* Python `dict`s preserve insertion order; they are modelled as association
  lists with `abump` (`d[k] = d.get(k, 0) + w`) and `aset` (`d[k] = v`).
* Python `sorted` / `list.sort` are stable; they are modelled by the stable
  insertion sort `sortStable`.
* Transactions reach the algorithm as Python sets, which the code iterates in
  an unspecified internal order; a transaction is therefore modelled as a
  `List Item` exposing that iteration order.  Items are `Nat` (the datasets'
  integer tokens), ordered as Python orders them.
* The recursion of `mine_patterns` is modelled with an explicit fuel
  parameter; `fpgrowth` supplies fuel `maxPathLen tree + 1`, which is proved
  sufficient (the conditional tree of any item has strictly smaller maximal
  path length).
-/

namespace FPG

abbrev Item := Nat

/-- Association-list lookup (first match), modelling Python `d[k]` / `k in d`. -/
def alookup [DecidableEq α] (k : α) : List (α × β) → Option β
  | [] => none
  | (a, b) :: l => if a = k then some b else alookup k l

/-- `d[k] = d.get(k, 0) + w`: bump a key's count, appending the key at the end
if it is new (Python dicts keep insertion order). -/
def abump [DecidableEq α] (k : α) (w : Nat) : List (α × Nat) → List (α × Nat)
  | [] => [(k, w)]
  | (a, c) :: l => if a = k then (a, c + w) :: l else (a, c) :: abump k w l

/-- `d[k] = v`: set a key's value in place, appending the key if it is new. -/
def aset [DecidableEq α] (k : α) (v : β) : List (α × β) → List (α × β)
  | [] => [(k, v)]
  | (a, b) :: l => if a = k then (a, v) :: l else (a, b) :: aset k v l

/-- Insert `x` in front of the first element `y` with `le x y`; building block
of the stable insertion sort. -/
def insertOrd (le : α → α → Bool) (x : α) : List α → List α
  | [] => [x]
  | y :: ys => if le x y then x :: y :: ys else y :: insertOrd le x ys

/-- Stable sort (insertion sort), modelling Python's stable `sorted`:
elements whose keys tie keep their original relative order. -/
def sortStable (le : α → α → Bool) (l : List α) : List α := l.foldr (insertOrd le) []

/-- Remove duplicates keeping the first occurrence (the insertion order of the
corresponding Python dict/`set` keys). -/
def dedupF [DecidableEq α] : List α → List α
  | [] => []
  | a :: l => a :: (dedupF l).filter (fun b => decide (b ≠ a))

/-- Lookup in a frequency dict, `self.frequent_items[x]`. -/
def freqOf (freq : List (Item × Nat)) (i : Item) : Nat := (alookup i freq).getD 0

/-- Python `item in freq_dict`. -/
def isFrequent (freq : List (Item × Nat)) (i : Item) : Bool := (alookup i freq).isSome

/-- First pass of `build_fptree`: count item frequencies, one increment per
occurrence in each transaction, dict keys in first-seen order. -/
def itemCounts (txns : List (List Item)) : List (Item × Nat) :=
  txns.foldl (fun m t => t.foldl (fun m i => abump i 1 m) m) []

/-- `self.frequent_items` of the top-level tree: items whose count reaches
`minsup`, sorted by count descending (Python's stable sort: ties keep the
first-seen order — the item value is NOT consulted). -/
def frequentItems (txns : List (List Item)) (minsup : Nat) : List (Item × Nat) :=
  sortStable (fun a b => Nat.ble b.2 a.2) ((itemCounts txns).filter (fun p => Nat.ble minsup p.2))

/-- The record actually inserted for a transaction: infrequent items filtered
out, then stable-sorted by frequency descending only (ties keep the
transaction's own iteration order). -/
def sortedRecord (freq : List (Item × Nat)) (t : List Item) : List Item :=
  sortStable (fun a b => Nat.ble (freqOf freq b) (freqOf freq a)) (t.filter (isFrequent freq))

/-- The FP-tree: root paths mapped to node counts, in node-creation order. -/
abbrev PathTree := List (List Item × Nat)

/-- `insert_tree`, walking down from the node with root path `pre`: each step
increments the child's count by the weight `w`, creating the child (appended,
i.e. linked at the end of its header chain) when absent. -/
def insertFrom (pre : List Item) (r : List Item) (w : Nat) (t : PathTree) : PathTree :=
  match r with
  | [] => t
  | i :: rest => insertFrom (pre ++ [i]) rest w (abump (pre ++ [i]) w t)

/-- `self.insert_tree(sorted_transaction, self.root)` with weight `w`. -/
def insertRecord (r : List Item) (w : Nat) (t : PathTree) : PathTree := insertFrom [] r w t

/-- `FPTree.build_fptree`: second pass inserts each filtered, frequency-sorted
transaction with weight 1. -/
def build_fptree (txns : List (List Item)) (minsup : Nat) : PathTree :=
  txns.foldl (fun t txn => insertRecord (sortedRecord (frequentItems txns minsup) txn) 1 t) []

/-- The header-link chain of `i`: all nodes holding item `i` (paths ending in
`i`), in creation (= chain) order. -/
def chainPaths (t : PathTree) (i : Item) : PathTree :=
  t.filter (fun pc => decide (pc.1.getLast? = some i))

/-- `FPTree._sum_header_support`: total count over the item's entire chain. -/
def sum_header_support (t : PathTree) (i : Item) : Nat :=
  ((chainPaths t i).map (fun pc => pc.2)).sum

/-- The keys of `self.header_table`, in insertion order (the order in which the
first node of each item was created). -/
def headerItems (t : PathTree) : List Item :=
  dedupF (t.filterMap (fun pc => pc.1.getLast?))

/-- `FPTree.find_conditional_pattern_base`: walk the chain head to tail; for
each node take its strict ancestors below the root in root-to-node order
(`dropLast` of the root path), skipping nodes with an empty ancestor path. -/
def find_conditional_pattern_base (t : PathTree) (i : Item) : List (List Item × Nat) :=
  (chainPaths t i).filterMap (fun pc =>
    if pc.1.dropLast = [] then none else some (pc.1.dropLast, pc.2))

/-- Step 1 of `build_conditional_tree_from_patterns`: weighted local counts,
adding each pair's count once per distinct item of its path. -/
def localCounts (pats : List (List Item × Nat)) : List (Item × Nat) :=
  pats.foldl (fun m pc => (dedupF pc.1).foldl (fun m i => abump i pc.2 m) m) []

/-- The conditional builder's ordering key: count descending, ties broken by
ascending item (`key=lambda x: (-x[1], x[0])`). -/
def condLe (a b : Item × Nat) : Bool :=
  Nat.blt b.2 a.2 || (decide (a.2 = b.2) && Nat.ble a.1 b.1)

/-- Step 3 of `build_conditional_tree_from_patterns`: the fixed order list. -/
def condOrder (freq : List (Item × Nat)) : List (Item × Nat) := sortStable condLe freq

/-- `rank[it]`: position of the item in the order list. -/
def rankOf (order : List (Item × Nat)) (i : Item) : Nat :=
  order.findIdx (fun p => decide (p.1 = i))

/-- Step 2 of `build_conditional_tree_from_patterns`: keep only the locally
frequent items. -/
def condFrequent (pats : List (List Item × Nat)) (minsup : Nat) : List (Item × Nat) :=
  (localCounts pats).filter (fun p => Nat.ble minsup p.2)

/-- The record the conditional builder inserts for the pair `pc`: the path
filtered to locally frequent items, sorted by rank in the fixed order. -/
def condRecord (pats : List (List Item × Nat)) (minsup : Nat) (pc : List Item × Nat) :
    List Item :=
  sortStable
    (fun a b => Nat.ble (rankOf (condOrder (condFrequent pats minsup)) a)
      (rankOf (condOrder (condFrequent pats minsup)) b))
    (pc.1.filter (isFrequent (condFrequent pats minsup)))

/-- `FPTree.build_conditional_tree_from_patterns`: returns the new tree
together with its `frequent_items` dict (`dict(order)`, empty for the empty
tree). Each surviving path is inserted with the pair's count as weight. -/
def build_conditional_tree_from_patterns (pats : List (List Item × Nat)) (minsup : Nat) :
    PathTree × List (Item × Nat) :=
  if condFrequent pats minsup = [] then ([], [])
  else
    (pats.foldl (fun t pc => insertRecord (condRecord pats minsup pc) pc.2 t) [],
     condOrder (condFrequent pats minsup))

/-- Ascending item order used by `tuple(sorted(pat + suffix))`. -/
def itemLe (a b : Item) : Bool := Nat.ble a b

/-- One iteration of the `for item, first_node in items:` loop of
`mine_patterns`: record the singleton with its full-chain support, build the
conditional tree and, if it is non-empty, merge the recursively mined
sub-patterns (suffix appended, key canonically sorted); `rec` is the
recursive call on conditional trees (which receive their own
`frequent_items`). -/
def mineStep (rec : PathTree → List (Item × Nat) → Nat → List (List Item × Nat))
    (t : PathTree) (minsup : Nat) (i : Item) (patterns : List (List Item × Nat)) :
    List (List Item × Nat) :=
  let c := build_conditional_tree_from_patterns (find_conditional_pattern_base t i) minsup
  if c.1 = [] then aset [i] (sum_header_support t i) patterns
  else (rec c.1 c.2 minsup).foldl
         (fun ps pc => aset (sortStable itemLe (pc.1 ++ [i])) pc.2 ps)
         (aset [i] (sum_header_support t i) patterns)

/-- The loop of `mine_patterns` over the remaining header items. -/
def mineItems (rec : PathTree → List (Item × Nat) → Nat → List (List Item × Nat))
    (t : PathTree) (minsup : Nat) :
    List Item → List (List Item × Nat) → List (List Item × Nat)
  | [], patterns => patterns
  | i :: rest, patterns => mineItems rec t minsup rest (mineStep rec t minsup i patterns)

/-- `FPTree.mine_patterns` with explicit recursion fuel: iterate header items
from least to most frequent (Python's stable sort over the header table's
insertion order), record each singleton with its full-chain support, and merge
the recursively mined patterns of its conditional tree. -/
def mine_patterns : Nat → PathTree → List (Item × Nat) → Nat → List (List Item × Nat)
  | 0, _, _, _ => []
  | fuel+1, t, freq, minsup =>
    mineItems (mine_patterns fuel) t minsup
      (sortStable (fun a b => Nat.ble (freqOf freq a) (freqOf freq b)) (headerItems t)) []

/-- Length of the longest root path in the tree (recursion measure). -/
def maxPathLen (t : PathTree) : Nat := t.foldr (fun pc m => max pc.1.length m) 0

/-- `fpgrowth(transactions, minsup)`: build the tree and mine it (the supplied
fuel is proved sufficient below). -/
def fpgrowth (txns : List (List Item)) (minsup : Nat) : List (List Item × Nat) :=
  mine_patterns (maxPathLen (build_fptree txns minsup) + 1) (build_fptree txns minsup)
    (frequentItems txns minsup) minsup

/-- Brute-force support: the number of transactions containing every item of
`s`. -/
def bruteSupport (txns : List (List Item)) (s : List Item) : Nat :=
  (txns.filter (fun t => s.all (fun i => decide (i ∈ t)))).length

/-- Number of transactions containing the single item `i`. -/
def txnSupport (txns : List (List Item)) (i : Item) : Nat :=
  (txns.filter (fun t => decide (i ∈ t))).length

/-- Association-list lookup with default `0` (`d.get(k, 0)`). -/
def alookupD [DecidableEq α] (k : α) (m : List (α × Nat)) : Nat := (alookup k m).getD 0

/-- `isPre q r`: `q` is a prefix of `r`. -/
def isPre (q r : List Item) : Bool := decide (r.take q.length = q)

/-- The weighted tally the spec prescribes for the conditional counting pass:
each pair contributes its count once iff the item appears in its path. -/
def weightedCount (pats : List (List Item × Nat)) (i : Item) : Nat :=
  (pats.map (fun pc => if i ∈ pc.1 then pc.2 else 0)).sum

/-- The patterns recorded by the single **branch** of `mine_patterns` that
processes item `i` of tree `t` (one iteration of the loop, starting from an
empty accumulator). -/
def branchPatterns (t : PathTree) (minsup : Nat) (i : Item) : List (List Item × Nat) :=
  mineItems (mine_patterns (maxPathLen t)) t minsup [i] []

/-- Modelled from the spec (claim C3): the fixed ordering the spec prescribes
for every tree construction — descending tally, ties broken by ascending
item order. -/
def specFixedOrderLe (freq : List (Item × Nat)) (a b : Item) : Bool :=
  Nat.blt (freqOf freq b) (freqOf freq a) ||
    (decide (freqOf freq a = freqOf freq b) && Nat.ble a b)

/-! ### Basic lemmas about the dict and sort primitives -/

theorem alookup_aset [DecidableEq α] (k K : α) (v : β) (m : List (α × β)) :
    alookup K (aset k v m) = if k = K then some v else alookup K m := by
  induction m with
  | nil => by_cases h : k = K <;> simp [aset, alookup, h]
  | cons hd tl ih =>
    obtain ⟨a, b⟩ := hd
    by_cases hak : a = k
    · subst hak
      by_cases haK : a = K <;> simp [aset, alookup, haK]
    · by_cases haK : a = K
      · subst haK
        simp [aset, alookup, hak, Ne.symm hak]
      · simp [aset, alookup, hak, haK, ih]

theorem alookupD_abump [DecidableEq α] (k K : α) (w : Nat) (m : List (α × Nat)) :
    alookupD K (abump k w m) = alookupD K m + (if k = K then w else 0) := by
  induction m with
  | nil => by_cases h : k = K <;> simp [abump, alookup, alookupD, h]
  | cons hd tl ih =>
    obtain ⟨a, c⟩ := hd
    by_cases hak : a = k
    · subst hak
      by_cases haK : a = K
      · subst haK
        simp [abump, alookup, alookupD]
      · simp [abump, alookup, alookupD, haK]
    · by_cases haK : a = K
      · subst haK
        simp [abump, alookup, alookupD, hak, Ne.symm hak]
      · simp [abump, alookup, alookupD, hak, haK] at ih ⊢
        exact ih

theorem mem_abump [DecidableEq α] (k : α) (w : Nat) (m : List (α × Nat))
    (pc : α × Nat) (h : pc ∈ abump k w m) : pc.1 = k ∨ pc ∈ m := by
  induction m with
  | nil => simp [abump] at h; simp [h]
  | cons hd tl ih =>
    obtain ⟨a, c⟩ := hd
    by_cases hak : a = k
    · subst hak
      simp [abump] at h
      rcases h with h | h
      · left; rw [h]
      · right; simp [h]
    · simp [abump, hak] at h
      rcases h with h | h
      · right; simp [h]
      · rcases ih h with h1 | h1
        · exact Or.inl h1
        · right; simp [h1]

theorem perm_insertOrd (le : α → α → Bool) (x : α) (l : List α) :
    List.Perm (insertOrd le x l) (x :: l) := by
  induction l with
  | nil => simp [insertOrd]
  | cons y ys ih =>
    by_cases h : le x y
    · simp [insertOrd, h]
    · simp only [insertOrd, h, if_false]
      exact (List.Perm.cons y ih).trans (List.Perm.swap x y ys)

theorem perm_sortStable (le : α → α → Bool) (l : List α) :
    List.Perm (sortStable le l) l := by
  induction l with
  | nil => simp [sortStable]
  | cons x xs ih =>
    have : sortStable le (x :: xs) = insertOrd le x (sortStable le xs) := rfl
    rw [this]
    exact (perm_insertOrd le x (sortStable le xs)).trans (List.Perm.cons x ih)

theorem mem_sortStable (le : α → α → Bool) (l : List α) (a : α) :
    a ∈ sortStable le l ↔ a ∈ l :=
  (perm_sortStable le l).mem_iff

theorem length_sortStable (le : α → α → Bool) (l : List α) :
    (sortStable le l).length = l.length :=
  (perm_sortStable le l).length_eq

theorem nodup_sortStable (le : α → α → Bool) (l : List α) (h : l.Nodup) :
    (sortStable le l).Nodup :=
  ((perm_sortStable le l).nodup_iff).mpr h

theorem pairwise_insertOrd (le : α → α → Bool)
    (htot : ∀ a b, le a b = true ∨ le b a = true)
    (htrans : ∀ a b c, le a b = true → le b c = true → le a c = true)
    (x : α) (l : List α) (h : l.Pairwise (fun a b => le a b = true)) :
    (insertOrd le x l).Pairwise (fun a b => le a b = true) := by
  induction l with
  | nil => simp [insertOrd]
  | cons y ys ih =>
    rcases List.pairwise_cons.mp h with ⟨hy, hys⟩
    by_cases hxy : le x y
    · simp only [insertOrd, hxy, if_true]
      refine List.pairwise_cons.mpr ⟨?_, h⟩
      intro z hzmem
      rcases List.mem_cons.mp hzmem with hz1 | hz2
      · subst hz1
        exact hxy
      · exact htrans x y z hxy (hy z hz2)
    · simp only [insertOrd, hxy, if_false]
      refine List.pairwise_cons.mpr ⟨?_, ih hys⟩
      intro z hzmem
      rcases List.mem_cons.mp ((perm_insertOrd le x ys).mem_iff.mp hzmem) with hz1 | hz2
      · subst hz1
        rcases htot y z with h1 | h1
        · exact h1
        · exact absurd h1 (by simpa using hxy)
      · exact hy z hz2

theorem pairwise_sortStable (le : α → α → Bool)
    (htot : ∀ a b, le a b = true ∨ le b a = true)
    (htrans : ∀ a b c, le a b = true → le b c = true → le a c = true)
    (l : List α) : (sortStable le l).Pairwise (fun a b => le a b = true) := by
  induction l with
  | nil => simp [sortStable]
  | cons x xs ih => exact pairwise_insertOrd le htot htrans x (sortStable le xs) ih

theorem mem_dedupF [DecidableEq α] (l : List α) (a : α) : a ∈ dedupF l ↔ a ∈ l := by
  induction l with
  | nil => simp [dedupF]
  | cons x xs ih =>
    by_cases hax : a = x
    · subst hax
      simp [dedupF]
    · simp [dedupF, hax, List.mem_filter, ih]

theorem nodup_dedupF [DecidableEq α] (l : List α) : (dedupF l).Nodup := by
  induction l with
  | nil => simp [dedupF]
  | cons x xs ih =>
    refine List.nodup_cons.mpr ⟨?_, List.Nodup.filter _ ih⟩
    intro hx
    have := (List.mem_filter.mp hx).2
    simp at this

theorem count_dedupF [DecidableEq α] (l : List α) (a : α) :
    (dedupF l).count a = if a ∈ l then 1 else 0 := by
  by_cases h : a ∈ l
  · rw [if_pos h]
    exact List.count_eq_one_of_mem (nodup_dedupF l) ((mem_dedupF l a).mpr h)
  · rw [if_neg h]
    exact List.count_eq_zero.mpr (fun hc => h ((mem_dedupF l a).mp hc))

/-! ### Lemmas about tree insertion -/

theorem sumHS_abump (p : List Item) (w : Nat) (t : PathTree) (j : Item) :
    sum_header_support (abump p w t) j =
      sum_header_support t j + (if p.getLast? = some j then w else 0) := by
  induction t with
  | nil =>
    by_cases h : p.getLast? = some j <;> simp [abump, sum_header_support, chainPaths, h]
  | cons hd tl ih =>
    obtain ⟨q, c⟩ := hd
    by_cases hqp : q = p
    · subst hqp
      by_cases h : q.getLast? = some j
      · simp [abump, sum_header_support, chainPaths, h]
        omega
      · simp [abump, sum_header_support, chainPaths, h]
    · by_cases h : q.getLast? = some j <;>
        simp [abump, sum_header_support, chainPaths, hqp, h] at ih ⊢ <;> omega

theorem sumHS_insertFrom (r : List Item) (pre : List Item) (w : Nat) (t : PathTree)
    (j : Item) :
    sum_header_support (insertFrom pre r w t) j =
      sum_header_support t j + w * r.count j := by
  induction r generalizing pre t with
  | nil => simp [insertFrom]
  | cons i rest ih =>
    rw [insertFrom, ih, sumHS_abump]
    have hlast : (pre ++ [i]).getLast? = some i := by simp
    rw [hlast]
    by_cases hij : i = j
    · subst hij
      simp [List.count_cons]
      ring
    · have : (some i = some j) = False := by simp [hij]
      simp [List.count_cons, hij, Ne.symm hij]

theorem alookupD_insertFrom_short (r pre q : List Item) (w : Nat) (t : PathTree)
    (hq : q.length ≤ pre.length) :
    alookupD q (insertFrom pre r w t) = alookupD q t := by
  induction r generalizing pre t with
  | nil => simp [insertFrom]
  | cons i rest ih =>
    rw [insertFrom, ih (pre ++ [i]) _ (by simp; omega), alookupD_abump]
    have : pre ++ [i] ≠ q := by
      intro hcontra
      have := congrArg List.length hcontra
      simp at this
      omega
    simp [this]

theorem alookupD_insertFrom_pre (r pre s : List Item) (w : Nat) (t : PathTree)
    (hs : s ≠ []) (hsr : r.take s.length = s) :
    alookupD (pre ++ s) (insertFrom pre r w t) = alookupD (pre ++ s) t + w := by
  induction r generalizing pre s t with
  | nil =>
    exfalso
    apply hs
    simpa using hsr.symm
  | cons i rest ih =>
    cases s with
    | nil => exact absurd rfl hs
    | cons a s0 =>
      simp only [List.length_cons, List.take_succ_cons, List.cons.injEq] at hsr
      obtain ⟨hai, hs0⟩ := hsr
      subst hai
      cases s0 with
      | nil =>
        rw [insertFrom,
          alookupD_insertFrom_short rest (pre ++ [i]) (pre ++ [i]) w _ le_rfl,
          alookupD_abump]
        simp
      | cons b s1 =>
        have hrw : pre ++ i :: b :: s1 = (pre ++ [i]) ++ (b :: s1) := by simp
        rw [insertFrom, hrw, ih (pre ++ [i]) (b :: s1) _ (by simp) hs0, alookupD_abump]
        have hne : pre ++ [i] ≠ (pre ++ [i]) ++ (b :: s1) := by
          intro hcontra
          have hlen := congrArg List.length hcontra
          simp at hlen
        simp [hne]

theorem alookupD_insertFrom_out (r pre q : List Item) (w : Nat) (t : PathTree)
    (hout : ∀ s, s ≠ [] → r.take s.length = s → q ≠ pre ++ s) :
    alookupD q (insertFrom pre r w t) = alookupD q t := by
  induction r generalizing pre t with
  | nil => simp [insertFrom]
  | cons i rest ih =>
    rw [insertFrom]
    rw [ih (pre ++ [i]) _ ?hrec]
    · rw [alookupD_abump]
      have hne : pre ++ [i] ≠ q := by
        intro hcontra
        exact hout [i] (by simp) (by simp) hcontra.symm
      simp [hne]
    case hrec =>
      intro s hs hsr hq
      apply hout (i :: s) (by simp) ?_ ?_
      · simpa using congrArg (List.cons i) hsr
      · rw [hq]
        simp

theorem mem_insertFrom (r pre : List Item) (w : Nat) (t : PathTree) (pc : List Item × Nat)
    (h : pc ∈ insertFrom pre r w t) :
    pc ∈ t ∨ ∃ s, s ≠ [] ∧ r.take s.length = s ∧ pc.1 = pre ++ s := by
  induction r generalizing pre t with
  | nil => exact Or.inl h
  | cons i rest ih =>
    rw [insertFrom] at h
    rcases ih (pre ++ [i]) _ h with h1 | ⟨s, hs, hsr, hps⟩
    · rcases mem_abump _ _ _ _ h1 with h2 | h2
      · right
        exact ⟨[i], by simp, by simp, h2⟩
      · exact Or.inl h2
    · right
      refine ⟨i :: s, by simp, ?_, ?_⟩
      · simpa using congrArg (List.cons i) hsr
      · rw [hps]
        simp

theorem le_maxPathLen (t : PathTree) (pc : List Item × Nat) (h : pc ∈ t) :
    pc.1.length ≤ maxPathLen t := by
  induction t with
  | nil => simp at h
  | cons hd tl ih =>
    rcases List.mem_cons.mp h with h1 | h1
    · subst h1
      simp [maxPathLen]
    · have := ih h1
      simp only [maxPathLen, List.foldr] at this ⊢
      omega

theorem maxPathLen_le (t : PathTree) (n : Nat) (h : ∀ pc ∈ t, pc.1.length ≤ n) :
    maxPathLen t ≤ n := by
  induction t with
  | nil => simp [maxPathLen]
  | cons hd tl ih =>
    have h1 := h hd (List.mem_cons_self hd tl)
    have h2 := ih (fun pc hpc => h pc (List.mem_cons_of_mem hd hpc))
    simp only [maxPathLen, List.foldr] at h2 ⊢
    omega

/-! ### The conditional pattern base and the header table -/

theorem getLast?_eq_concat (q : List Item) (i : Item) (h : q.getLast? = some i) :
    q = q.dropLast ++ [i] := by
  induction q using List.reverseRecOn with
  | nil => simp at h
  | append_singleton l a _ =>
    simp at h
    subst h
    simp

theorem mem_cpb (t : PathTree) (i : Item) (p : List Item) (c : Nat) :
    (p, c) ∈ find_conditional_pattern_base t i ↔ p ≠ [] ∧ (p ++ [i], c) ∈ t := by
  constructor
  · intro h
    rw [find_conditional_pattern_base, List.mem_filterMap] at h
    obtain ⟨⟨q, c0⟩, hq, hf⟩ := h
    rw [chainPaths, List.mem_filter] at hq
    obtain ⟨hqt, hqlast⟩ := hq
    simp only [decide_eq_true_eq] at hqlast
    by_cases hdrop : q.dropLast = []
    · simp [hdrop] at hf
    · rw [if_neg hdrop] at hf
      obtain ⟨hp, hc⟩ := Prod.mk.injEq _ _ _ _ ▸ Option.some.inj hf
      subst hp
      subst hc
      refine ⟨hdrop, ?_⟩
      rw [← getLast?_eq_concat q i hqlast]
      exact hqt
  · rintro ⟨hp, hmem⟩
    rw [find_conditional_pattern_base, List.mem_filterMap]
    refine ⟨(p ++ [i], c), ?_, ?_⟩
    · rw [chainPaths, List.mem_filter]
      exact ⟨hmem, by simp⟩
    · simp [hp]

theorem mem_headerItems (t : PathTree) (i : Item) :
    i ∈ headerItems t ↔ ∃ pc ∈ t, pc.1.getLast? = some i := by
  rw [headerItems, mem_dedupF, List.mem_filterMap]

/-! ### Counting through the top-level build -/

theorem sumHS_build_aux (freq : List (Item × Nat)) (l : List (List Item)) (t0 : PathTree)
    (i : Item) :
    sum_header_support (l.foldl (fun t txn => insertRecord (sortedRecord freq txn) 1 t) t0) i
      = sum_header_support t0 i
        + (l.map (fun txn => (sortedRecord freq txn).count i)).sum := by
  induction l generalizing t0 with
  | nil => simp
  | cons txn rest ih =>
    rw [List.foldl_cons, ih, insertRecord, sumHS_insertFrom]
    simp only [List.map_cons, List.sum_cons]
    omega

theorem count_sortedRecord (freq : List (Item × Nat)) (txn : List Item) (i : Item) :
    (sortedRecord freq txn).count i = (txn.filter (isFrequent freq)).count i :=
  (perm_sortStable _ _).count_eq i

theorem count_filter_isFrequent (freq : List (Item × Nat)) (txn : List Item) (i : Item) :
    (txn.filter (isFrequent freq)).count i
      = if isFrequent freq i then txn.count i else 0 := by
  by_cases h : isFrequent freq i
  · rw [if_pos h, List.count_filter]
    simpa using h
  · rw [if_neg h, List.count_eq_zero]
    intro hc
    exact h (List.mem_filter.mp hc).2

theorem count_nodup (txn : List Item) (i : Item) (h : txn.Nodup) :
    txn.count i = if i ∈ txn then 1 else 0 := by
  by_cases hm : i ∈ txn
  · rw [if_pos hm]
    exact List.count_eq_one_of_mem h hm
  · rw [if_neg hm]
    exact List.count_eq_zero.mpr hm

theorem sum_singleton_counts (freq : List (Item × Nat)) (i : Item)
    (hfreq : isFrequent freq i = true) :
    ∀ l : List (List Item), (∀ t ∈ l, t.Nodup) →
      (l.map (fun txn => (sortedRecord freq txn).count i)).sum = txnSupport l i := by
  intro l hnd
  induction l with
  | nil => simp [txnSupport]
  | cons txn rest ih =>
    have htxn : txn.Nodup := hnd txn (List.mem_cons_self txn rest)
    have hrest := ih (fun t ht => hnd t (List.mem_cons_of_mem txn ht))
    simp only [List.map_cons, List.sum_cons, hrest]
    rw [count_sortedRecord, count_filter_isFrequent, if_pos hfreq, count_nodup txn i htxn]
    by_cases hm : i ∈ txn
    · simp [txnSupport, hm]
      omega
    · simp [txnSupport, hm]

theorem mem_build (txns : List (List Item)) (ms : Nat) (pc : List Item × Nat)
    (h : pc ∈ build_fptree txns ms) :
    ∃ txn ∈ txns, ∃ s, s ≠ []
      ∧ (sortedRecord (frequentItems txns ms) txn).take s.length = s ∧ pc.1 = s := by
  rw [build_fptree] at h
  suffices haux : ∀ (l : List (List Item)) (t0 : PathTree),
      pc ∈ l.foldl (fun t txn => insertRecord (sortedRecord (frequentItems txns ms) txn) 1 t) t0 →
      pc ∈ t0 ∨ ∃ txn ∈ l, ∃ s, s ≠ []
        ∧ (sortedRecord (frequentItems txns ms) txn).take s.length = s ∧ pc.1 = s by
    rcases haux txns [] h with h1 | h1
    · simp at h1
    · exact h1
  intro l
  induction l with
  | nil =>
    intro t0 h0
    exact Or.inl h0
  | cons txn rest ih =>
    intro t0 h0
    rw [List.foldl_cons] at h0
    rcases ih _ h0 with h1 | ⟨txn2, htxn2, s, hs, hsr, hps⟩
    · rcases mem_insertFrom _ _ _ _ _ h1 with h2 | ⟨s, hs, hsr, hps⟩
      · exact Or.inl h2
      · exact Or.inr ⟨txn, List.mem_cons_self txn rest, s, hs, hsr, by simpa using hps⟩
    · exact Or.inr ⟨txn2, List.mem_cons_of_mem txn htxn2, s, hs, hsr, hps⟩

theorem mem_of_take_prefix (s l : List Item) (hsr : l.take s.length = s) (i : Item)
    (hi : i ∈ s) : i ∈ l := by
  rw [← hsr] at hi
  exact List.take_subset _ _ hi

theorem getLast?_mem_self (l : List Item) (i : Item) (h : l.getLast? = some i) : i ∈ l := by
  rw [getLast?_eq_concat l i h]
  simp

theorem headerItem_isFrequent (txns : List (List Item)) (ms : Nat) (i : Item)
    (h : i ∈ headerItems (build_fptree txns ms)) :
    isFrequent (frequentItems txns ms) i = true := by
  obtain ⟨pc, hpc, hlast⟩ := (mem_headerItems _ i).mp h
  obtain ⟨txn, _, s, _, hsr, hps⟩ := mem_build txns ms pc hpc
  have hi : i ∈ sortedRecord (frequentItems txns ms) txn := by
    apply mem_of_take_prefix s _ hsr
    apply getLast?_mem_self
    rw [← hps]
    exact hlast
  have := (mem_sortStable _ _ i).mp hi
  exact (List.mem_filter.mp this).2

theorem sumHS_build (txns : List (List Item)) (ms : Nat) (i : Item)
    (hnd : ∀ t ∈ txns, t.Nodup)
    (hfreq : isFrequent (frequentItems txns ms) i = true) :
    sum_header_support (build_fptree txns ms) i = txnSupport txns i := by
  rw [build_fptree, sumHS_build_aux]
  rw [sum_singleton_counts _ i hfreq txns hnd]
  simp [sum_header_support, chainPaths]

/-! ### Singleton lookups in the mined pattern map -/

theorem mem_keys_aset [DecidableEq α] (k K : α) (v : β) (m : List (α × β))
    (h : ∃ w, (K, w) ∈ aset k v m) : K = k ∨ ∃ w, (K, w) ∈ m := by
  obtain ⟨w, hw⟩ := h
  induction m with
  | nil =>
    simp [aset] at hw
    exact Or.inl hw.1
  | cons hd tl ih =>
    obtain ⟨a, b⟩ := hd
    by_cases hak : a = k
    · subst hak
      rw [aset, if_pos rfl] at hw
      rcases List.mem_cons.mp hw with h1 | h1
      · left
        exact (Prod.mk.injEq _ _ _ _ ▸ h1).1
      · exact Or.inr ⟨w, List.mem_cons_of_mem _ h1⟩
    · rw [aset, if_neg hak] at hw
      rcases List.mem_cons.mp hw with h1 | h1
      · right
        have hKa : K = a := (Prod.mk.injEq _ _ _ _ ▸ h1).1
        subst hKa
        exact ⟨b, List.mem_cons_self _ _⟩
      · rcases ih h1 with h2 | ⟨w2, hw2⟩
        · exact Or.inl h2
        · exact Or.inr ⟨w2, List.mem_cons_of_mem _ hw2⟩

theorem mem_keys_foldl_aset (f : (List Item × Nat) → List Item)
    (l : List (List Item × Nat)) (acc : List (List Item × Nat)) (K : List Item)
    (h : ∃ w, (K, w) ∈ l.foldl (fun ps pc => aset (f pc) pc.2 ps) acc) :
    (∃ w, (K, w) ∈ acc) ∨ ∃ pc ∈ l, K = f pc := by
  induction l generalizing acc with
  | nil => exact Or.inl h
  | cons pc rest ih =>
    rw [List.foldl_cons] at h
    rcases ih _ h with h1 | ⟨pc2, hpc2, hK⟩
    · rcases mem_keys_aset _ _ _ _ h1 with h2 | h2
      · exact Or.inr ⟨pc, List.mem_cons_self pc rest, h2⟩
      · exact Or.inl h2
    · exact Or.inr ⟨pc2, List.mem_cons_of_mem pc hpc2, hK⟩

theorem alookup_foldl_aset_out (f : (List Item × Nat) → List Item)
    (l : List (List Item × Nat)) (acc : List (List Item × Nat)) (K : List Item)
    (hout : ∀ pc ∈ l, f pc ≠ K) :
    alookup K (l.foldl (fun ps pc => aset (f pc) pc.2 ps) acc) = alookup K acc := by
  induction l generalizing acc with
  | nil => rfl
  | cons pc rest ih =>
    rw [List.foldl_cons, ih _ (fun pc2 h2 => hout pc2 (List.mem_cons_of_mem pc h2)),
      alookup_aset]
    rw [if_neg (hout pc (List.mem_cons_self pc rest))]

theorem mineStep_keys (rec : PathTree → List (Item × Nat) → Nat → List (List Item × Nat))
    (t : PathTree) (ms : Nat) (i : Item) (patterns : List (List Item × Nat)) (K : List Item)
    (h : ∃ w, (K, w) ∈ mineStep rec t ms i patterns) :
    (∃ w, (K, w) ∈ patterns) ∨ K = [i]
      ∨ ((build_conditional_tree_from_patterns (find_conditional_pattern_base t i) ms).1 ≠ []
        ∧ ∃ pc ∈ rec
            (build_conditional_tree_from_patterns (find_conditional_pattern_base t i) ms).1
            (build_conditional_tree_from_patterns (find_conditional_pattern_base t i) ms).2
            ms,
          K = sortStable itemLe (pc.1 ++ [i])) := by
  rw [mineStep] at h
  by_cases hc : (build_conditional_tree_from_patterns (find_conditional_pattern_base t i) ms).1 = []
  · simp only [hc, if_true] at h
    rcases mem_keys_aset _ _ _ _ h with h1 | h1
    · exact Or.inr (Or.inl h1)
    · exact Or.inl h1
  · simp only [hc, if_false] at h
    rcases mem_keys_foldl_aset _ _ _ _ h with h1 | ⟨pc, hpc, hK⟩
    · rcases mem_keys_aset _ _ _ _ h1 with h2 | h2
      · exact Or.inr (Or.inl h2)
      · exact Or.inl h2
    · exact Or.inr (Or.inr ⟨hc, pc, hpc, hK⟩)

theorem mineItems_keys (rec : PathTree → List (Item × Nat) → Nat → List (List Item × Nat))
    (t : PathTree) (ms : Nat) (its : List Item) :
    ∀ acc K, (∃ w, (K, w) ∈ mineItems rec t ms its acc) →
      (∃ w, (K, w) ∈ acc) ∨ K ≠ [] := by
  induction its with
  | nil =>
    intro acc K h
    exact Or.inl h
  | cons i rest ih =>
    intro acc K h
    rw [mineItems] at h
    rcases ih _ K h with h1 | h1
    · rcases mineStep_keys _ _ _ _ _ _ h1 with h2 | h2 | ⟨_, pc, _, hK⟩
      · exact Or.inl h2
      · right
        rw [h2]
        simp
      · right
        rw [hK]
        intro hnil
        have := congrArg List.length hnil
        rw [length_sortStable] at this
        simp at this
    · exact Or.inr h1

theorem mine_keys_ne_nil (fuel : Nat) (t : PathTree) (freq : List (Item × Nat)) (ms : Nat)
    (K : List Item) (w : Nat) (h : (K, w) ∈ mine_patterns fuel t freq ms) : K ≠ [] := by
  cases fuel with
  | zero => simp [mine_patterns] at h
  | succ n =>
    rw [mine_patterns] at h
    rcases mineItems_keys _ _ _ _ _ _ ⟨w, h⟩ with h1 | h1
    · obtain ⟨w2, hw2⟩ := h1
      simp at hw2
    · exact h1

theorem lookup_mineStep_singleton
    (rec : PathTree → List (Item × Nat) → Nat → List (List Item × Nat))
    (t : PathTree) (ms : Nat) (i i0 : Item) (patterns : List (List Item × Nat))
    (hrec : ∀ t2 fr K w, (K, w) ∈ rec t2 fr ms → K ≠ []) :
    alookup [i0] (mineStep rec t ms i patterns)
      = if i = i0 then some (sum_header_support t i) else alookup [i0] patterns := by
  rw [mineStep]
  by_cases hc : (build_conditional_tree_from_patterns (find_conditional_pattern_base t i) ms).1 = []
  · simp only [hc, if_true]
    rw [alookup_aset]
    by_cases hii : i = i0
    · subst hii
      simp
    · have : ([i] = [i0]) = False := by simp [hii]
      simp [hii, this]
  · simp only [hc, if_false]
    rw [alookup_foldl_aset_out]
    · rw [alookup_aset]
      by_cases hii : i = i0
      · subst hii
        simp
      · have : ([i] = [i0]) = False := by simp [hii]
        simp [hii, this]
    · intro pc hpc heq
      have hne := hrec _ _ _ _ hpc
      have hlen := congrArg List.length heq
      rw [length_sortStable] at hlen
      simp at hlen
      cases pc1 : pc.1 with
      | nil => exact hne pc1
      | cons a l =>
        rw [pc1] at hlen
        simp at hlen

theorem mineItems_lookup_singleton
    (rec : PathTree → List (Item × Nat) → Nat → List (List Item × Nat))
    (t : PathTree) (ms : Nat) (i0 : Item)
    (hrec : ∀ t2 fr K w, (K, w) ∈ rec t2 fr ms → K ≠ []) :
    ∀ (its : List Item) (acc : List (List Item × Nat)),
      alookup [i0] (mineItems rec t ms its acc)
        = if i0 ∈ its then some (sum_header_support t i0) else alookup [i0] acc := by
  intro its
  induction its with
  | nil =>
    intro acc
    simp [mineItems]
  | cons i rest ih =>
    intro acc
    rw [mineItems, ih]
    by_cases hmem : i0 ∈ rest
    · simp [List.mem_cons, hmem]
    · rw [if_neg hmem, lookup_mineStep_singleton rec t ms i i0 acc hrec]
      by_cases hii : i = i0
      · subst hii
        simp
      · have hne2 : ¬i0 = i := fun h => hii h.symm
        have : (i0 ∈ i :: rest) = False := by
          simp [List.mem_cons, hmem, hne2]
        simp only [this, if_false]
        rw [if_neg hii]

theorem mine_lookup_singleton (fuel : Nat) (t : PathTree) (freq : List (Item × Nat))
    (ms : Nat) (i0 : Item) :
    alookup [i0] (mine_patterns (fuel + 1) t freq ms)
      = if i0 ∈ headerItems t then some (sum_header_support t i0) else none := by
  rw [mine_patterns,
    mineItems_lookup_singleton _ _ _ _ (fun t2 fr K w h => mine_keys_ne_nil fuel t2 fr ms K w h)]
  by_cases hmem : i0 ∈ headerItems t
  · rw [if_pos ((mem_sortStable _ _ i0).mpr hmem), if_pos hmem]
  · rw [if_neg (fun hc => hmem ((mem_sortStable _ _ i0).mp hc)), if_neg hmem]
    rfl

/-! ### Empty scopes -/

theorem sortedRecord_nil_freq (txn : List Item) : sortedRecord [] txn = [] := by
  have hpred : ∀ i ∈ txn, isFrequent ([] : List (Item × Nat)) i = false := by
    intro i _
    rfl
  rw [sortedRecord, List.filter_eq_nil_iff.mpr (by simpa using hpred)]
  rfl

theorem build_empty (txns : List (List Item)) (ms : Nat)
    (h : frequentItems txns ms = []) : build_fptree txns ms = [] := by
  rw [build_fptree]
  have haux : ∀ (l : List (List Item)),
      l.foldl (fun t txn => insertRecord (sortedRecord (frequentItems txns ms) txn) 1 t)
        ([] : PathTree) = [] := by
    intro l
    induction l with
    | nil => rfl
    | cons txn rest ih =>
      rw [List.foldl_cons]
      have hstep : insertRecord (sortedRecord (frequentItems txns ms) txn) 1 [] = [] := by
        rw [h, sortedRecord_nil_freq]
        rfl
      rw [hstep]
      exact ih
  exact haux txns

theorem mine_empty (fuel : Nat) (freq : List (Item × Nat)) (ms : Nat) :
    mine_patterns fuel [] freq ms = [] := by
  cases fuel with
  | zero => rfl
  | succ n => rfl

/-! ### The orderings used by the two builders -/

theorem condLe_iff (a b : Item × Nat) :
    condLe a b = true ↔ b.2 < a.2 ∨ (a.2 = b.2 ∧ a.1 ≤ b.1) := by
  simp [condLe, Nat.blt_eq, Nat.ble_eq, Bool.or_eq_true, Bool.and_eq_true,
    decide_eq_true_eq]

theorem condLe_total (a b : Item × Nat) : condLe a b = true ∨ condLe b a = true := by
  rw [condLe_iff, condLe_iff]
  rcases Nat.lt_trichotomy a.2 b.2 with h | h | h
  · right
    exact Or.inl h
  · rcases Nat.le_total a.1 b.1 with h1 | h1
    · left
      exact Or.inr ⟨h, h1⟩
    · right
      exact Or.inr ⟨h.symm, h1⟩
  · left
    exact Or.inl h

theorem condLe_trans (a b c : Item × Nat) (h1 : condLe a b = true)
    (h2 : condLe b c = true) : condLe a c = true := by
  rw [condLe_iff] at h1 h2 ⊢
  rcases h1 with h1 | ⟨h1e, h1i⟩ <;> rcases h2 with h2 | ⟨h2e, h2i⟩
  · left
    omega
  · left
    omega
  · left
    omega
  · right
    exact ⟨by omega, le_trans h1i h2i⟩

theorem pairwise_condOrder (freq : List (Item × Nat)) :
    (condOrder freq).Pairwise (fun a b => b.2 < a.2 ∨ (a.2 = b.2 ∧ a.1 ≤ b.1)) := by
  have h := pairwise_sortStable condLe condLe_total condLe_trans freq
  exact h.imp (fun hab => (condLe_iff _ _).mp hab)

theorem pairwise_sortedRecord (freq : List (Item × Nat)) (txn : List Item) :
    (sortedRecord freq txn).Pairwise (fun a b => freqOf freq b ≤ freqOf freq a) := by
  have h := pairwise_sortStable (fun a b => Nat.ble (freqOf freq b) (freqOf freq a))
    (fun a b => by
      rcases Nat.le_total (freqOf freq b) (freqOf freq a) with h1 | h1
      · exact Or.inl (Nat.ble_eq.mpr h1)
      · exact Or.inr (Nat.ble_eq.mpr h1))
    (fun a b c h1 h2 => Nat.ble_eq.mpr (le_trans (Nat.ble_eq.mp h2) (Nat.ble_eq.mp h1)))
    (txn.filter (isFrequent freq))
  exact h.imp (fun hab => Nat.ble_eq.mp hab)

/-! ### The conditional counting pass -/

theorem alookupD_foldl_abump (w : Nat) (l : List Item) (i : Item) (m : List (Item × Nat)) :
    alookupD i (l.foldl (fun m2 j => abump j w m2) m) = alookupD i m + w * l.count i := by
  induction l generalizing m with
  | nil => simp
  | cons j rest ih =>
    rw [List.foldl_cons, ih, alookupD_abump]
    by_cases hji : j = i
    · subst hji
      simp [List.count_cons]
      ring
    · simp [List.count_cons, hji, Ne.symm hji]

theorem localCounts_eq (pats : List (List Item × Nat)) (i : Item) :
    alookupD i (localCounts pats) = weightedCount pats i := by
  rw [localCounts, weightedCount]
  suffices haux : ∀ (l : List (List Item × Nat)) (m : List (Item × Nat)),
      alookupD i (l.foldl (fun m2 pc => (dedupF pc.1).foldl (fun m3 j => abump j pc.2 m3) m2) m)
        = alookupD i m + (l.map (fun pc => if i ∈ pc.1 then pc.2 else 0)).sum by
    simpa [alookupD, alookup] using haux pats []
  intro l
  induction l with
  | nil =>
    intro m
    simp
  | cons pc rest ih =>
    intro m
    rw [List.foldl_cons, ih, alookupD_foldl_abump, count_dedupF]
    simp only [List.map_cons, List.sum_cons]
    by_cases hm : i ∈ pc.1
    · simp only [hm, if_true, mul_one]
      omega
    · simp only [hm, if_false, mul_zero]
      omega

theorem keys_abump [DecidableEq α] (k : α) (w : Nat) (m : List (α × Nat)) :
    (abump k w m).map Prod.fst
      = if k ∈ m.map Prod.fst then m.map Prod.fst else m.map Prod.fst ++ [k] := by
  induction m with
  | nil => simp [abump]
  | cons hd tl ih =>
    obtain ⟨a, c⟩ := hd
    by_cases hak : a = k
    · subst hak
      simp [abump]
    · have hka : ¬k = a := fun h => hak h.symm
      by_cases hk : k ∈ tl.map Prod.fst
      · rw [abump, if_neg hak]
        simp only [List.map_cons, ih, hk, if_true]
        rw [if_pos (by simp [List.mem_cons, hk])]
      · rw [abump, if_neg hak]
        simp only [List.map_cons, ih, hk, if_false]
        rw [if_neg (by simp [List.mem_cons, hka, hk])]
        simp

theorem nodup_keys_abump [DecidableEq α] (k : α) (w : Nat) (m : List (α × Nat))
    (h : (m.map Prod.fst).Nodup) : ((abump k w m).map Prod.fst).Nodup := by
  rw [keys_abump]
  by_cases hk : k ∈ m.map Prod.fst
  · simpa [hk] using h
  · rw [if_neg hk, List.nodup_append]
    refine ⟨h, by simp, ?_⟩
    intro a ha hb
    simp at hb
    subst hb
    exact hk ha

theorem nodup_keys_foldl_abump (w : Nat) (l : List Item) (m : List (Item × Nat))
    (h : (m.map Prod.fst).Nodup) :
    (((l.foldl (fun m2 j => abump j w m2) m)).map Prod.fst).Nodup := by
  induction l generalizing m with
  | nil => exact h
  | cons j rest ih =>
    rw [List.foldl_cons]
    exact ih _ (nodup_keys_abump j w m h)

theorem nodup_keys_localCounts (pats : List (List Item × Nat)) :
    ((localCounts pats).map Prod.fst).Nodup := by
  rw [localCounts]
  suffices haux : ∀ (l : List (List Item × Nat)) (m : List (Item × Nat)),
      (m.map Prod.fst).Nodup →
      ((l.foldl (fun m2 pc => (dedupF pc.1).foldl (fun m3 j => abump j pc.2 m3) m2) m).map
        Prod.fst).Nodup by
    exact haux pats [] (by simp)
  intro l
  induction l with
  | nil =>
    intro m h
    exact h
  | cons pc rest ih =>
    intro m h
    rw [List.foldl_cons]
    exact ih _ (nodup_keys_foldl_abump pc.2 (dedupF pc.1) m h)

theorem alookup_isSome_iff [DecidableEq α] (k : α) (m : List (α × β)) :
    (alookup k m).isSome = true ↔ k ∈ m.map Prod.fst := by
  induction m with
  | nil => simp [alookup]
  | cons hd tl ih =>
    obtain ⟨a, b⟩ := hd
    by_cases hak : a = k
    · subst hak
      simp [alookup]
    · have hka : ¬k = a := fun h => hak h.symm
      simp [alookup, hak, hka, ih]

theorem alookup_none_of_not_mem [DecidableEq α] (k : α) (m : List (α × β))
    (h : k ∉ m.map Prod.fst) : alookup k m = none := by
  cases halk : alookup k m with
  | none => rfl
  | some v =>
    exfalso
    apply h
    rw [← alookup_isSome_iff]
    rw [halk]
    rfl

theorem keys_filter_subset [DecidableEq α] (p : α × β → Bool) (m : List (α × β)) (k : α)
    (h : k ∈ (m.filter p).map Prod.fst) : k ∈ m.map Prod.fst := by
  rw [List.mem_map] at h ⊢
  obtain ⟨pc, hpc, hk⟩ := h
  exact ⟨pc, List.mem_of_mem_filter hpc, hk⟩

theorem alookup_filter_nodup [DecidableEq α] (p : α × β → Bool) (m : List (α × β))
    (hnd : (m.map Prod.fst).Nodup) (j : α) :
    alookup j (m.filter p)
      = (alookup j m).bind (fun c => if p (j, c) = true then some c else none) := by
  induction m with
  | nil => simp [alookup]
  | cons hd tl ih =>
    obtain ⟨a, b⟩ := hd
    rw [List.map_cons, List.nodup_cons] at hnd
    obtain ⟨hna, hntl⟩ := hnd
    by_cases haj : a = j
    · subst haj
      by_cases hp : p (a, b) = true
      · rw [List.filter_cons_of_pos hp]
        simp [alookup, hp]
      · rw [List.filter_cons_of_neg (by simpa using hp)]
        have : alookup a (tl.filter p) = none :=
          alookup_none_of_not_mem _ _ (fun hc => hna (keys_filter_subset p tl a hc))
        simp [alookup, this, hp]
    · by_cases hp : p (a, b) = true
      · rw [List.filter_cons_of_pos hp]
        simp [alookup, haj, ih hntl]
      · rw [List.filter_cons_of_neg (by simpa using hp)]
        simp [alookup, haj, ih hntl]

theorem condFrequent_sound (pats : List (List Item × Nat)) (ms : Nat) (j : Item) (c : Nat)
    (h : alookup j (condFrequent pats ms) = some c) :
    ms ≤ c ∧ c = weightedCount pats j := by
  rw [condFrequent, alookup_filter_nodup _ _ (nodup_keys_localCounts pats) j] at h
  cases halk : alookup j (localCounts pats) with
  | none =>
    rw [halk] at h
    simp at h
  | some c0 =>
    rw [halk] at h
    simp only [Option.some_bind] at h
    by_cases hble : Nat.ble ms c0 = true
    · rw [if_pos hble] at h
      have hc : c0 = c := Option.some.inj h
      subst hc
      refine ⟨Nat.ble_eq.mp hble, ?_⟩
      rw [← localCounts_eq]
      simp [alookupD, halk]
    · rw [if_neg hble] at h
      simp at h

theorem mem_keys_self_abump [DecidableEq α] (k : α) (w : Nat) (m : List (α × Nat)) :
    k ∈ (abump k w m).map Prod.fst := by
  rw [keys_abump]
  by_cases hk : k ∈ m.map Prod.fst
  · rw [if_pos hk]
    exact hk
  · simp [hk]

theorem mem_keys_mono_abump [DecidableEq α] (k k2 : α) (w : Nat) (m : List (α × Nat))
    (h : k ∈ m.map Prod.fst) : k ∈ (abump k2 w m).map Prod.fst := by
  rw [keys_abump]
  by_cases hk : k2 ∈ m.map Prod.fst
  · simpa [hk] using h
  · simp [hk, h]

theorem mem_keys_foldl_abump_of (w : Nat) (l : List Item) (m : List (Item × Nat)) (j : Item)
    (h : j ∈ l ∨ j ∈ m.map Prod.fst) :
    j ∈ ((l.foldl (fun m2 j2 => abump j2 w m2) m).map Prod.fst) := by
  induction l generalizing m with
  | nil =>
    rcases h with h | h
    · simp at h
    · exact h
  | cons j2 rest ih =>
    rw [List.foldl_cons]
    rcases h with h | h
    · rcases List.mem_cons.mp h with h1 | h1
      · subst h1
        exact ih _ (Or.inr (mem_keys_self_abump j w m))
      · exact ih _ (Or.inl h1)
    · exact ih _ (Or.inr (mem_keys_mono_abump j j2 w m h))

theorem mem_keys_localCounts (pats : List (List Item × Nat)) (j : Item)
    (h : ∃ pc ∈ pats, j ∈ pc.1) : j ∈ (localCounts pats).map Prod.fst := by
  rw [localCounts]
  suffices haux : ∀ (l : List (List Item × Nat)) (m : List (Item × Nat)),
      (∃ pc ∈ l, j ∈ pc.1) ∨ j ∈ m.map Prod.fst →
      j ∈ ((l.foldl (fun m2 pc => (dedupF pc.1).foldl (fun m3 j2 => abump j2 pc.2 m3) m2) m).map
        Prod.fst) by
    exact haux pats [] (Or.inl h)
  intro l
  induction l with
  | nil =>
    intro m hm
    rcases hm with ⟨pc, hpc, _⟩ | hm
    · simp at hpc
    · exact hm
  | cons pc rest ih =>
    intro m hm
    rw [List.foldl_cons]
    rcases hm with ⟨pc2, hpc2, hj⟩ | hm
    · rcases List.mem_cons.mp hpc2 with h1 | h1
      · subst h1
        exact ih _ (Or.inr (mem_keys_foldl_abump_of _ _ _ _
          (Or.inl ((mem_dedupF _ j).mpr hj))))
      · exact ih _ (Or.inl ⟨pc2, h1, hj⟩)
    · exact ih _ (Or.inr (mem_keys_foldl_abump_of _ _ _ _ (Or.inr hm)))

theorem condFrequent_complete (pats : List (List Item × Nat)) (ms : Nat) (j : Item)
    (hms : ms ≤ weightedCount pats j) (hocc : ∃ pc ∈ pats, j ∈ pc.1) :
    isFrequent (condFrequent pats ms) j = true := by
  have hkey := mem_keys_localCounts pats j hocc
  have hsome := (alookup_isSome_iff j (localCounts pats)).mpr hkey
  obtain ⟨c, hc⟩ := Option.isSome_iff_exists.mp hsome
  have hcval : c = weightedCount pats j := by
    rw [← localCounts_eq]
    simp [alookupD, hc]
  rw [isFrequent, condFrequent, alookup_filter_nodup _ _ (nodup_keys_localCounts pats) j, hc]
  simp only [Option.some_bind]
  rw [if_pos (Nat.ble_eq.mpr (hcval ▸ hms))]
  rfl

/-! ### Node counts in the conditional tree -/

theorem alookupD_insertRecord (r : List Item) (w : Nat) (t : PathTree) (q : List Item) :
    alookupD q (insertRecord r w t)
      = alookupD q t + (if q ≠ [] ∧ isPre q r = true then w else 0) := by
  rw [insertRecord]
  by_cases hq : q ≠ [] ∧ isPre q r = true
  · obtain ⟨hq1, hq2⟩ := hq
    rw [if_pos ⟨hq1, hq2⟩]
    have := alookupD_insertFrom_pre r [] q w t hq1 (of_decide_eq_true hq2)
    simpa using this
  · rw [if_neg hq]
    apply alookupD_insertFrom_out
    intro s hs hsr hqs
    simp only [List.nil_append] at hqs
    subst hqs
    exact hq ⟨hs, decide_eq_true hsr⟩

theorem condTree_count (pats : List (List Item × Nat)) (ms : Nat) (q : List Item) :
    alookupD q (build_conditional_tree_from_patterns pats ms).1
      = (pats.map (fun pc =>
          if q ≠ [] ∧ isPre q (condRecord pats ms pc) = true then pc.2 else 0)).sum := by
  by_cases hf : condFrequent pats ms = []
  · have htree : (build_conditional_tree_from_patterns pats ms).1 = [] := by
      rw [build_conditional_tree_from_patterns, if_pos hf]
    rw [htree]
    have hzero : ∀ x ∈ pats.map (fun pc =>
        if q ≠ [] ∧ isPre q (condRecord pats ms pc) = true then pc.2 else 0), x = 0 := by
      intro x hx
      rw [List.mem_map] at hx
      obtain ⟨pc, hpc, hxeq⟩ := hx
      rw [← hxeq, if_neg]
      rintro ⟨hq1, hq2⟩
      have hcr : condRecord pats ms pc = [] := by
        rw [condRecord, hf]
        have hfil : pc.1.filter (isFrequent []) = [] := by
          apply List.filter_eq_nil_iff.mpr
          intro a _
          simp [isFrequent, alookup]
        rw [hfil]
        rfl
      rw [hcr, isPre] at hq2
      have hqq := of_decide_eq_true hq2
      simp at hqq
      exact hq1 hqq
    rw [List.sum_eq_zero hzero]
    rfl
  · have htree : (build_conditional_tree_from_patterns pats ms).1
        = pats.foldl (fun t pc => insertRecord (condRecord pats ms pc) pc.2 t) [] := by
      rw [build_conditional_tree_from_patterns, if_neg hf]
    rw [htree]
    suffices haux : ∀ (l : List (List Item × Nat)) (t0 : PathTree),
        alookupD q (l.foldl (fun t pc => insertRecord (condRecord pats ms pc) pc.2 t) t0)
          = alookupD q t0 + (l.map (fun pc =>
              if q ≠ [] ∧ isPre q (condRecord pats ms pc) = true then pc.2 else 0)).sum by
      simpa [alookupD, alookup] using haux pats []
    intro l
    induction l with
    | nil =>
      intro t0
      simp
    | cons pc rest ih =>
      intro t0
      rw [List.foldl_cons, ih, alookupD_insertRecord]
      simp only [List.map_cons, List.sum_cons]
      omega

/-! ### Termination: conditional trees shrink -/

theorem mem_condTree (pats : List (List Item × Nat)) (ms : Nat) (pc : List Item × Nat)
    (h : pc ∈ (build_conditional_tree_from_patterns pats ms).1) :
    ∃ pr ∈ pats, ∃ s, s ≠ [] ∧ (condRecord pats ms pr).take s.length = s ∧ pc.1 = s := by
  by_cases hf : condFrequent pats ms = []
  · have htree : (build_conditional_tree_from_patterns pats ms).1 = [] := by
      rw [build_conditional_tree_from_patterns, if_pos hf]
    rw [htree] at h
    simp at h
  · have htree : (build_conditional_tree_from_patterns pats ms).1
        = pats.foldl (fun t pr => insertRecord (condRecord pats ms pr) pr.2 t) [] := by
      rw [build_conditional_tree_from_patterns, if_neg hf]
    rw [htree] at h
    suffices haux : ∀ (l : List (List Item × Nat)) (t0 : PathTree),
        pc ∈ l.foldl (fun t pr => insertRecord (condRecord pats ms pr) pr.2 t) t0 →
        pc ∈ t0 ∨ ∃ pr ∈ l, ∃ s, s ≠ []
          ∧ (condRecord pats ms pr).take s.length = s ∧ pc.1 = s by
      rcases haux pats [] h with h1 | h1
      · simp at h1
      · exact h1
    intro l
    induction l with
    | nil =>
      intro t0 h0
      exact Or.inl h0
    | cons pr rest ih =>
      intro t0 h0
      rw [List.foldl_cons] at h0
      rcases ih _ h0 with h1 | ⟨pr2, hpr2, s, hs, hsr, hps⟩
      · rcases mem_insertFrom _ _ _ _ _ h1 with h2 | ⟨s, hs, hsr, hps⟩
        · exact Or.inl h2
        · exact Or.inr ⟨pr, List.mem_cons_self pr rest, s, hs, hsr, by simpa using hps⟩
      · exact Or.inr ⟨pr2, List.mem_cons_of_mem pr hpr2, s, hs, hsr, hps⟩

theorem length_condRecord_le (pats : List (List Item × Nat)) (ms : Nat)
    (pr : List Item × Nat) : (condRecord pats ms pr).length ≤ pr.1.length := by
  rw [condRecord, length_sortStable]
  exact List.length_filter_le _ _

theorem take_eq_length_le (s l : List Item) (h : l.take s.length = s) :
    s.length ≤ l.length := by
  have := congrArg List.length h
  rw [List.length_take] at this
  omega

theorem condTree_path_bounds (t : PathTree) (i : Item) (ms : Nat) (pc : List Item × Nat)
    (h : pc ∈ (build_conditional_tree_from_patterns (find_conditional_pattern_base t i) ms).1) :
    1 ≤ pc.1.length ∧ pc.1.length < maxPathLen t := by
  obtain ⟨pr, hpr, s, hs, hsr, hps⟩ := mem_condTree _ _ _ h
  have hcpb := (mem_cpb t i pr.1 pr.2).mp (by simpa using hpr)
  obtain ⟨hpne, hmem⟩ := hcpb
  have hlen1 := le_maxPathLen t _ hmem
  simp only [List.length_append, List.length_singleton] at hlen1
  have hslen := take_eq_length_le s _ hsr
  have hcr := length_condRecord_le (find_conditional_pattern_base t i) ms pr
  have hpos : 1 ≤ s.length := List.length_pos.mpr hs
  rw [hps]
  omega

theorem condTree_mpl_lt (t : PathTree) (i : Item) (ms : Nat)
    (hne : (build_conditional_tree_from_patterns (find_conditional_pattern_base t i) ms).1
      ≠ []) :
    maxPathLen
        (build_conditional_tree_from_patterns (find_conditional_pattern_base t i) ms).1
      < maxPathLen t := by
  obtain ⟨pc, hpc⟩ := List.exists_mem_of_ne_nil _ hne
  have h1 := condTree_path_bounds t i ms pc hpc
  have h2 : maxPathLen
      (build_conditional_tree_from_patterns (find_conditional_pattern_base t i) ms).1
      ≤ maxPathLen t - 1 := by
    apply maxPathLen_le
    intro pc2 hpc2
    have := condTree_path_bounds t i ms pc2 hpc2
    omega
  omega

theorem mineStep_congr
    (rec1 rec2 : PathTree → List (Item × Nat) → Nat → List (List Item × Nat))
    (t : PathTree) (ms : Nat) (i : Item) (patterns : List (List Item × Nat))
    (h : (build_conditional_tree_from_patterns (find_conditional_pattern_base t i) ms).1 ≠ [] →
      rec1 (build_conditional_tree_from_patterns (find_conditional_pattern_base t i) ms).1
          (build_conditional_tree_from_patterns (find_conditional_pattern_base t i) ms).2 ms
        = rec2 (build_conditional_tree_from_patterns (find_conditional_pattern_base t i) ms).1
            (build_conditional_tree_from_patterns (find_conditional_pattern_base t i) ms).2
            ms) :
    mineStep rec1 t ms i patterns = mineStep rec2 t ms i patterns := by
  by_cases hc : (build_conditional_tree_from_patterns (find_conditional_pattern_base t i) ms).1
      = []
  · simp only [mineStep, hc, if_true]
  · simp only [mineStep, hc, if_false]
    rw [h hc]

theorem mineItems_congr
    (rec1 rec2 : PathTree → List (Item × Nat) → Nat → List (List Item × Nat))
    (t : PathTree) (ms : Nat)
    (h : ∀ i,
      (build_conditional_tree_from_patterns (find_conditional_pattern_base t i) ms).1 ≠ [] →
      rec1 (build_conditional_tree_from_patterns (find_conditional_pattern_base t i) ms).1
          (build_conditional_tree_from_patterns (find_conditional_pattern_base t i) ms).2 ms
        = rec2 (build_conditional_tree_from_patterns (find_conditional_pattern_base t i) ms).1
            (build_conditional_tree_from_patterns (find_conditional_pattern_base t i) ms).2
            ms) :
    ∀ (its : List Item) (acc : List (List Item × Nat)),
      mineItems rec1 t ms its acc = mineItems rec2 t ms its acc := by
  intro its
  induction its with
  | nil =>
    intro acc
    rfl
  | cons i rest ih =>
    intro acc
    rw [mineItems, mineItems, mineStep_congr rec1 rec2 t ms i acc (h i), ih]

theorem mine_fuel_congr :
    ∀ (f g : Nat) (t : PathTree) (freq : List (Item × Nat)) (ms : Nat),
      maxPathLen t < f → maxPathLen t < g →
      mine_patterns f t freq ms = mine_patterns g t freq ms := by
  intro f
  induction f with
  | zero =>
    intro g t freq ms hf
    exact absurd hf (Nat.not_lt_zero _)
  | succ f0 ih =>
    intro g t freq ms hf hg
    cases g with
    | zero => exact absurd hg (Nat.not_lt_zero _)
    | succ g0 =>
      rw [mine_patterns, mine_patterns]
      apply mineItems_congr
      intro i hne
      exact ih g0 _ _ ms
        (lt_of_lt_of_le (condTree_mpl_lt t i ms hne) (Nat.lt_succ_iff.mp hf))
        (lt_of_lt_of_le (condTree_mpl_lt t i ms hne) (Nat.lt_succ_iff.mp hg))

/-! ### Stability of the sorts, and the order of conditional records -/

theorem filter_insertOrd_neg (le : α → α → Bool) (p : α → Bool) (x : α)
    (hx : p x = false) :
    ∀ s : List α, (insertOrd le x s).filter p = s.filter p := by
  intro s
  induction s with
  | nil => simp [insertOrd, hx]
  | cons y ys ih =>
    by_cases hle : le x y
    · simp only [insertOrd, hle, if_true, List.filter_cons, hx]
      simp
    · rw [insertOrd, if_neg hle]
      simp only [List.filter_cons, ih]

theorem filter_key_insertOrd_pos (key : α → Nat) (v : Nat) (x : α) (hx : key x = v) :
    ∀ s : List α,
      (insertOrd (fun a b => Nat.ble (key b) (key a)) x s).filter
          (fun a => decide (key a = v))
        = x :: s.filter (fun a => decide (key a = v)) := by
  intro s
  induction s with
  | nil => simp [insertOrd, hx]
  | cons y ys ih =>
    by_cases hle : Nat.ble (key y) (key x) = true
    · simp only [insertOrd]
      rw [if_pos hle, List.filter_cons]
      simp [hx]
    · have hy : ¬key y = v := by
        intro heq
        exact hle (Nat.ble_eq.mpr (le_of_eq (heq.trans hx.symm)))
      simp only [insertOrd]
      rw [if_neg hle, List.filter_cons, ih]
      simp [hy]

theorem filter_key_sortStable_desc (key : α → Nat) (v : Nat) (l : List α) :
    (sortStable (fun a b => Nat.ble (key b) (key a)) l).filter (fun a => decide (key a = v))
      = l.filter (fun a => decide (key a = v)) := by
  induction l with
  | nil => rfl
  | cons x xs ih =>
    have hsort : sortStable (fun a b => Nat.ble (key b) (key a)) (x :: xs)
        = insertOrd (fun a b => Nat.ble (key b) (key a)) x
            (sortStable (fun a b => Nat.ble (key b) (key a)) xs) := rfl
    rw [hsort]
    by_cases hx : key x = v
    · rw [filter_key_insertOrd_pos key v x hx, ih, List.filter_cons]
      simp [hx]
    · rw [filter_insertOrd_neg _ _ x (by simp [hx]), ih, List.filter_cons]
      simp [hx]

theorem pairwise_sortStable_key_asc (key : α → Nat) (l : List α) :
    (sortStable (fun a b => Nat.ble (key a) (key b)) l).Pairwise
      (fun a b => key a ≤ key b) := by
  have h := pairwise_sortStable (fun a b => Nat.ble (key a) (key b))
    (fun a b => by
      rcases Nat.le_total (key a) (key b) with h1 | h1
      · exact Or.inl (Nat.ble_eq.mpr h1)
      · exact Or.inr (Nat.ble_eq.mpr h1))
    (fun a b c h1 h2 => Nat.ble_eq.mpr (le_trans (Nat.ble_eq.mp h1) (Nat.ble_eq.mp h2))) l
  exact h.imp (fun hab => Nat.ble_eq.mp hab)

theorem pairwise_condRecord (pats : List (List Item × Nat)) (ms : Nat)
    (pc : List Item × Nat) :
    (condRecord pats ms pc).Pairwise (fun a b =>
      rankOf (condOrder (condFrequent pats ms)) a
        ≤ rankOf (condOrder (condFrequent pats ms)) b) := by
  rw [condRecord]
  exact pairwise_sortStable_key_asc (rankOf (condOrder (condFrequent pats ms))) _

theorem sortedRecord_stable (f : List (Item × Nat)) (txn : List Item) (v : Nat) :
    (sortedRecord f txn).filter (fun a => decide (freqOf f a = v))
      = (txn.filter (isFrequent f)).filter (fun a => decide (freqOf f a = v)) := by
  rw [sortedRecord]
  exact filter_key_sortStable_desc (freqOf f) v _

theorem frequentItems_stable (txns : List (List Item)) (ms v : Nat) :
    (frequentItems txns ms).filter (fun p => decide (p.2 = v))
      = ((itemCounts txns).filter (fun p => Nat.ble ms p.2)).filter
          (fun p => decide (p.2 = v)) := by
  rw [frequentItems]
  exact filter_key_sortStable_desc (fun p : Item × Nat => p.2) v _

/-! ### Canonical keys: strictly ascending tuples -/

theorem itemLe_total (a b : Item) : itemLe a b = true ∨ itemLe b a = true := by
  rcases Nat.le_total a b with h | h
  · exact Or.inl (Nat.ble_eq.mpr h)
  · exact Or.inr (Nat.ble_eq.mpr h)

theorem itemLe_trans (a b c : Item) (h1 : itemLe a b = true) (h2 : itemLe b c = true) :
    itemLe a c = true :=
  Nat.ble_eq.mpr (le_trans (Nat.ble_eq.mp h1) (Nat.ble_eq.mp h2))

theorem pairwise_and_aux {R S : α → α → Prop} :
    ∀ l : List α, l.Pairwise R → l.Pairwise S → l.Pairwise (fun a b => R a b ∧ S a b) := by
  intro l
  induction l with
  | nil =>
    intro _ _
    exact List.Pairwise.nil
  | cons x xs ih =>
    intro h1 h2
    rcases List.pairwise_cons.mp h1 with ⟨h1x, h1xs⟩
    rcases List.pairwise_cons.mp h2 with ⟨h2x, h2xs⟩
    exact List.pairwise_cons.mpr ⟨fun z hz => ⟨h1x z hz, h2x z hz⟩, ih h1xs h2xs⟩

theorem sortStable_itemLe_pairwise_lt (l : List Item) (hnd : l.Nodup) :
    (sortStable itemLe l).Pairwise (· < ·) := by
  have h1 := pairwise_sortStable itemLe itemLe_total itemLe_trans l
  have h2 : (sortStable itemLe l).Nodup := nodup_sortStable _ _ hnd
  have h3 := pairwise_and_aux _ h1 h2
  exact h3.imp (fun hab => lt_of_le_of_ne (Nat.ble_eq.mp hab.1) hab.2)

theorem not_mem_of_nodup_concat (l : List Item) (a : Item) (h : (l ++ [a]).Nodup) :
    a ∉ l := by
  rw [List.nodup_append] at h
  intro ha
  exact h.2.2 ha (List.mem_singleton_self a)

theorem build_tree_nodup (txns : List (List Item)) (ms : Nat)
    (hnd : ∀ txn ∈ txns, txn.Nodup) :
    ∀ pc ∈ build_fptree txns ms, pc.1.Nodup := by
  intro pc hpc
  obtain ⟨txn, htxn, s, hs, hsr, hps⟩ := mem_build txns ms pc hpc
  have hsr2 : (sortedRecord (frequentItems txns ms) txn).Nodup := by
    rw [sortedRecord]
    exact nodup_sortStable _ _ ((hnd txn htxn).filter _)
  rw [hps, ← hsr]
  exact List.Nodup.sublist (List.take_sublist _ _) hsr2

theorem condTree_nodup (t : PathTree) (i : Item) (ms : Nat)
    (hnd : ∀ pc ∈ t, pc.1.Nodup) :
    ∀ qc ∈ (build_conditional_tree_from_patterns (find_conditional_pattern_base t i) ms).1,
      qc.1.Nodup := by
  intro qc hqc
  obtain ⟨pr, hpr, s, hs, hsr, hps⟩ := mem_condTree _ _ _ hqc
  have hcpb := (mem_cpb t i pr.1 pr.2).mp (by simpa using hpr)
  have hnodup : (pr.1 ++ [i]).Nodup := hnd _ hcpb.2
  have hp1 : pr.1.Nodup := hnodup.of_append_left
  have hcr : (condRecord (find_conditional_pattern_base t i) ms pr).Nodup := by
    rw [condRecord]
    exact nodup_sortStable _ _ (hp1.filter _)
  rw [hps, ← hsr]
  exact List.Nodup.sublist (List.take_sublist _ _) hcr

theorem condTree_item_src (t : PathTree) (i : Item) (ms : Nat)
    (hnd : ∀ pc ∈ t, pc.1.Nodup) (j : Item)
    (hj : ∃ qc ∈
        (build_conditional_tree_from_patterns (find_conditional_pattern_base t i) ms).1,
      j ∈ qc.1) :
    j ≠ i ∧ ∃ pc ∈ t, j ∈ pc.1 := by
  obtain ⟨qc, hqc, hjq⟩ := hj
  obtain ⟨pr, hpr, s, hs, hsr, hps⟩ := mem_condTree _ _ _ hqc
  rw [hps] at hjq
  have hjc : j ∈ condRecord (find_conditional_pattern_base t i) ms pr :=
    mem_of_take_prefix s _ hsr j hjq
  rw [condRecord] at hjc
  have hjp : j ∈ pr.1 := List.mem_of_mem_filter ((mem_sortStable _ _ j).mp hjc)
  have hcpb := (mem_cpb t i pr.1 pr.2).mp (by simpa using hpr)
  have hnodup : (pr.1 ++ [i]).Nodup := hnd _ hcpb.2
  have hinotin : i ∉ pr.1 := not_mem_of_nodup_concat _ _ hnodup
  refine ⟨fun hji => hinotin (hji ▸ hjp), ⟨(pr.1 ++ [i], pr.2), hcpb.2, by simp [hjp]⟩⟩

theorem mineItems_keys_cases
    (rec : PathTree → List (Item × Nat) → Nat → List (List Item × Nat))
    (t : PathTree) (ms : Nat) (its : List Item) :
    ∀ acc K, (∃ w, (K, w) ∈ mineItems rec t ms its acc) →
      (∃ w, (K, w) ∈ acc)
      ∨ ∃ i ∈ its, (K = [i]
        ∨ ((build_conditional_tree_from_patterns (find_conditional_pattern_base t i) ms).1
            ≠ []
          ∧ ∃ pc ∈ rec
              (build_conditional_tree_from_patterns (find_conditional_pattern_base t i) ms).1
              (build_conditional_tree_from_patterns (find_conditional_pattern_base t i) ms).2
              ms,
            K = sortStable itemLe (pc.1 ++ [i]))) := by
  induction its with
  | nil =>
    intro acc K h
    exact Or.inl h
  | cons i rest ih =>
    intro acc K h
    rw [mineItems] at h
    rcases ih _ K h with h1 | ⟨i2, hi2, hcase⟩
    · rcases mineStep_keys _ _ _ _ _ _ h1 with h2 | h2 | h2
      · exact Or.inl h2
      · exact Or.inr ⟨i, List.mem_cons_self i rest, Or.inl h2⟩
      · exact Or.inr ⟨i, List.mem_cons_self i rest, Or.inr h2⟩
    · exact Or.inr ⟨i2, List.mem_cons_of_mem i hi2, hcase⟩

theorem mine_keys_sorted (fuel : Nat) :
    ∀ (t : PathTree) (freq : List (Item × Nat)) (ms : Nat),
      (∀ pc ∈ t, pc.1.Nodup) →
      ∀ K v, (K, v) ∈ mine_patterns fuel t freq ms →
        K.Pairwise (· < ·) ∧ ∀ j ∈ K, ∃ pc ∈ t, j ∈ pc.1 := by
  induction fuel with
  | zero =>
    intro t freq ms hnd K v hKv
    simp [mine_patterns] at hKv
  | succ f ih =>
    intro t freq ms hnd K v hKv
    rw [mine_patterns] at hKv
    rcases mineItems_keys_cases _ _ _ _ _ K ⟨v, hKv⟩ with ⟨w, hw⟩ | ⟨i, hi, hcase⟩
    · simp at hw
    · have hihdr : i ∈ headerItems t := (mem_sortStable _ _ i).mp hi
      rcases hcase with hK | ⟨hne, pc, hpc, hK⟩
      · subst hK
        refine ⟨by simp, ?_⟩
        intro j hj
        simp at hj
        subst hj
        obtain ⟨pc, hpc, hlast⟩ := (mem_headerItems t j).mp hihdr
        exact ⟨pc, hpc, getLast?_mem_self _ _ hlast⟩
      · have hcnd := condTree_nodup t i ms hnd
        obtain ⟨hpw, hitems⟩ := ih _ _ ms hcnd pc.1 pc.2 (by simpa using hpc)
        have hpcnd : pc.1.Nodup := hpw.imp (fun hab => ne_of_lt hab)
        have hnotin : i ∉ pc.1 := by
          intro hin
          exact (condTree_item_src t i ms hnd i (hitems i hin)).1 rfl
        have hKnd : (pc.1 ++ [i]).Nodup := by
          rw [List.nodup_append]
          refine ⟨hpcnd, by simp, ?_⟩
          intro a ha hb
          rw [List.mem_singleton] at hb
          subst hb
          exact hnotin ha
        subst hK
        constructor
        · exact sortStable_itemLe_pairwise_lt _ hKnd
        · intro j hj
          rcases List.mem_append.mp ((mem_sortStable _ _ j).mp hj) with hj3 | hj3
          · exact (condTree_item_src t i ms hnd j (hitems j hj3)).2
          · rw [List.mem_singleton] at hj3
            subst hj3
            obtain ⟨pc2, hpc2, hlast⟩ := (mem_headerItems t j).mp hihdr
            exact ⟨pc2, hpc2, getLast?_mem_self _ _ hlast⟩

/-! ### Claim theorems -/

/-- **C1** (code_bug evaluation): the claim states that `mine_patterns` on the
tree built from any transaction sequence returns exactly the itemsets whose
brute-force support reaches `minsup`.  The code violates exhaustiveness: the
two transactions below are the same itemset `{1, 2}` presented in the two
iteration orders a Python set can expose; the brute-force support of
`{1, 2}` is `2 ≥ minsup = 2`, yet the mined result contains only the
singletons. -/
theorem C1_threshold_exhaustiveness_fails :
    bruteSupport [[1, 2], [2, 1]] [1, 2] = 2
      ∧ alookup [1, 2] (fpgrowth [[1, 2], [2, 1]] 2) = none
      ∧ fpgrowth [[1, 2], [2, 1]] 2 = [([1], 2), ([2], 2)] := by decide

/-- **C2** (confirmed): every singleton reported by the miner carries the
full-chain header support of its item, and that value equals the number of
input transactions containing the item (transactions being duplicate-free,
as itemsets are sets). -/
theorem C2_singleton_support (txns : List (List Item)) (ms : Nat) (i : Item) (v : Nat)
    (hnd : ∀ t ∈ txns, t.Nodup)
    (hv : alookup [i] (fpgrowth txns ms) = some v) :
    v = sum_header_support (build_fptree txns ms) i ∧ v = txnSupport txns i := by
  rw [fpgrowth, mine_lookup_singleton] at hv
  by_cases hmem : i ∈ headerItems (build_fptree txns ms)
  · rw [if_pos hmem] at hv
    have hveq : sum_header_support (build_fptree txns ms) i = v := Option.some.inj hv
    refine ⟨hveq.symm, ?_⟩
    rw [← hveq, sumHS_build txns ms i hnd (headerItem_isFrequent txns ms i hmem)]
  · rw [if_neg hmem] at hv
    exact absurd hv (by simp)

/-- Witness for C2 at a concrete input. -/
theorem C2_singleton_support_witness :
    2 = sum_header_support (build_fptree [[1, 2], [2]] 1) 2
      ∧ 2 = txnSupport [[1, 2], [2]] 2 :=
  C2_singleton_support [[1, 2], [2]] 1 2 2 (by decide) (by decide)

/-- **C4** (code_bug evaluation): the claim states that the mined mapping is
identical regardless of internal iteration order over tied-frequency items.
The two runs below present the same sequence of itemsets (`{1, 2}` twice),
differing only in the iteration order of the second set's two items, which
tie in frequency; the reported support of `{1, 2}` differs. -/
theorem C4_tied_iteration_order_changes_result :
    alookup [1, 2] (fpgrowth [[1, 2], [1, 2]] 1) = some 2
      ∧ alookup [1, 2] (fpgrowth [[1, 2], [2, 1]] 1) = some 1 := by decide

/-- **C5** (confirmed): an entry `(p, c)` is emitted by
`find_conditional_pattern_base` for item `i` exactly when `p` is non-empty
and some chain node of `i` has strict ancestor path `p` (in root-to-node
order) and count `c`; a chain node sitting directly below the root
contributes nothing. -/
theorem C5_conditional_pattern_base (t : PathTree) (i : Item) (p : List Item) (c : Nat) :
    (p, c) ∈ find_conditional_pattern_base t i ↔ p ≠ [] ∧ (p ++ [i], c) ∈ t :=
  mem_cpb t i p c

/-- Witness for C5 at a concrete input. -/
theorem C5_conditional_pattern_base_witness :
    ([1], 2) ∈ find_conditional_pattern_base [([1], 2), ([1, 2], 2)] 2 :=
  (C5_conditional_pattern_base [([1], 2), ([1, 2], 2)] 2 [1] 2).mpr (by decide)

/-- **C7** (confirmed): when no item reaches `minsup` — in particular for an
empty transaction sequence — the build yields the empty tree with an empty
header table, and mining returns the empty mapping; both are total functions,
so no error is possible. -/
theorem C7_empty_scope (txns : List (List Item)) (ms : Nat)
    (h : frequentItems txns ms = []) :
    build_fptree txns ms = [] ∧ headerItems (build_fptree txns ms) = []
      ∧ fpgrowth txns ms = [] := by
  have hb := build_empty txns ms h
  refine ⟨hb, ?_, ?_⟩
  · rw [hb]
    rfl
  · rw [fpgrowth, hb]
    exact mine_empty _ _ _

/-- Witness for C7 at concrete inputs: the empty sequence and a sequence in
which no item reaches `minsup`. -/
theorem C7_empty_scope_witness :
    (build_fptree [] 1 = [] ∧ headerItems (build_fptree [] 1) = []
      ∧ fpgrowth [] 1 = [])
    ∧ (build_fptree [[1], [2]] 2 = [] ∧ headerItems (build_fptree [[1], [2]] 2) = []
      ∧ fpgrowth [[1], [2]] 2 = []) :=
  ⟨C7_empty_scope [] 1 (by decide), C7_empty_scope [[1], [2]] 2 (by decide)⟩

/-- **C8** (code_bug evaluation): the claim states superset monotonicity of
the reported supports.  Below, `{1, 2} ⊆ {1, 2, 3}` are both reported, but
`{1, 2}` gets support 1 while `{1, 2, 3}` gets support 2 (the input is the
itemset `{1, 2, 3}` twice, in two iteration orders a Python set can
expose). -/
theorem C8_monotonicity_fails :
    ([1, 2] : List Item) ⊆ [1, 2, 3]
      ∧ alookup [1, 2] (fpgrowth [[1, 2, 3], [2, 1, 3]] 1) = some 1
      ∧ alookup [1, 2, 3] (fpgrowth [[1, 2, 3], [2, 1, 3]] 1) = some 2 := by decide

/-- **C3** (counterexample): the claim states that every tree construction
orders frequent items by descending tally with ties broken by ascending item
order and sorts each record by that fixed order before insertion.  In the
top-level build of `[[2, 1]]` both items tally 1; the spec's fixed order
sorts the record to `[1, 2]`, but the code inserts `[2, 1]` (its stable sort
consults only the tally), producing the tree rooted at item 2. -/
theorem C3_top_level_order_counterexample :
    sortedRecord (frequentItems [[2, 1]] 1) [2, 1] = [2, 1]
      ∧ sortStable (specFixedOrderLe (frequentItems [[2, 1]] 1)) [2, 1] = [1, 2]
      ∧ build_fptree [[2, 1]] 1 = [([2], 1), ([2, 1], 1)] := by decide

/-- **C10** (counterexample): the claim states that each canonical itemset is
recorded by exactly one branch, never assigned twice with different counts.
On the tree built from `[[1, 2], [1, 2], [2, 1]]` the canonical key `[1, 2]`
is recorded by the branch of item 1 with count 1 and again by the branch of
item 2 with count 2; the final mapping keeps the later branch's count. -/
theorem C10_double_recording_counterexample :
    alookup [1, 2] (branchPatterns (build_fptree [[1, 2], [1, 2], [2, 1]] 1) 1 1) = some 1
      ∧ alookup [1, 2] (branchPatterns (build_fptree [[1, 2], [1, 2], [2, 1]] 1) 1 2) = some 2
      ∧ alookup [1, 2] (fpgrowth [[1, 2], [1, 2], [2, 1]] 1) = some 2 := by decide

/-- **C3** (amended, confirmed): (i) the conditional builder's fixed order
list is sorted by descending tally with ties broken by ascending item order;
(ii) every path the conditional builder inserts is sorted by its rank in that
fixed order; (iii) each top-level record is inserted sorted by descending
tally only, and (iv) stably — within every tally class the inserted record
equals the filtered record, so tied items keep the record's own iteration
order; likewise (v) the top-level frequent-items dict is the tally-descending
stable sort of the filtered counts, whose ties keep first-appearance order
rather than ascending item order. -/
theorem C3_amended_ordering (freq f : List (Item × Nat)) (txn : List Item)
    (pats : List (List Item × Nat)) (ms : Nat) (pc : List Item × Nat)
    (txns : List (List Item)) (ms2 v : Nat) :
    (condOrder freq).Pairwise (fun a b => b.2 < a.2 ∨ (a.2 = b.2 ∧ a.1 ≤ b.1))
    ∧ (condRecord pats ms pc).Pairwise (fun a b =>
        rankOf (condOrder (condFrequent pats ms)) a
          ≤ rankOf (condOrder (condFrequent pats ms)) b)
    ∧ (sortedRecord f txn).Pairwise (fun a b => freqOf f b ≤ freqOf f a)
    ∧ (sortedRecord f txn).filter (fun a => decide (freqOf f a = v))
        = (txn.filter (isFrequent f)).filter (fun a => decide (freqOf f a = v))
    ∧ (frequentItems txns ms2).filter (fun p => decide (p.2 = v))
        = ((itemCounts txns).filter (fun p => Nat.ble ms2 p.2)).filter
            (fun p => decide (p.2 = v)) :=
  ⟨pairwise_condOrder freq, pairwise_condRecord pats ms pc, pairwise_sortedRecord f txn,
    sortedRecord_stable f txn v, frequentItems_stable txns ms2 v⟩

/-- **C6** (confirmed): in the conditional builder, (i) the counting pass
tallies for each item the sum of the counts of the pairs whose path contains
it (once per distinct item, not per occurrence); (ii) every kept item's
count meets `minsup` and equals that weighted tally; (iii) no item with
weighted tally ≥ `minsup` occurring in some path is discarded; (iv) each
node's count in the built tree is the sum of the counts of the pairs whose
filtered, rank-sorted record passes through that node — insertion adds the
pair's count, not 1. -/
theorem C6_conditional_build (pats : List (List Item × Nat)) (ms : Nat) :
    (∀ i, alookupD i (localCounts pats) = weightedCount pats i)
    ∧ (∀ j c, alookup j (condFrequent pats ms) = some c →
        ms ≤ c ∧ c = weightedCount pats j)
    ∧ (∀ j, ms ≤ weightedCount pats j → (∃ pc ∈ pats, j ∈ pc.1) →
        isFrequent (condFrequent pats ms) j = true)
    ∧ (∀ q, alookupD q (build_conditional_tree_from_patterns pats ms).1
        = (pats.map (fun pc =>
            if q ≠ [] ∧ isPre q (condRecord pats ms pc) = true then pc.2 else 0)).sum) :=
  ⟨fun i => localCounts_eq pats i, fun j c h => condFrequent_sound pats ms j c h,
    fun j h1 h2 => condFrequent_complete pats ms j h1 h2, fun q => condTree_count pats ms q⟩

/-- Witness for C6 at a concrete input: pattern base `[([1,2],2), ([2],1)]`
with `minsup = 2`; item 2 has weighted tally 3 and is kept. -/
theorem C6_conditional_build_witness :
    isFrequent (condFrequent [([1, 2], 2), ([2], 1)] 2) 2 = true :=
  (C6_conditional_build [([1, 2], 2), ([2], 1)] 2).2.2.1 2 (by decide)
    ⟨([1, 2], 2), by decide, by decide⟩

/-- **C9** (confirmed): mining terminates — modelled with fuel, any fuel
exceeding the maximal root-path length of the built tree yields the result of
`fpgrowth`, because each recursive call operates on a non-empty conditional
tree of strictly smaller maximal path length, and the recursion stops at an
empty conditional tree. -/
theorem C9_termination (txns : List (List Item)) (ms fuel : Nat)
    (h : maxPathLen (build_fptree txns ms) < fuel) :
    mine_patterns fuel (build_fptree txns ms) (frequentItems txns ms) ms
      = fpgrowth txns ms := by
  rw [fpgrowth]
  exact mine_fuel_congr fuel (maxPathLen (build_fptree txns ms) + 1) _ _ ms h
    (Nat.lt_succ_self _)

/-- Witness for C9 at a concrete input. -/
theorem C9_termination_witness :
    mine_patterns 10 (build_fptree [[1, 2], [2]] 1) (frequentItems [[1, 2], [2]] 1) 1
      = fpgrowth [[1, 2], [2]] 1 :=
  C9_termination [[1, 2], [2]] 1 10 (by decide)

/-- **C10** (amended, confirmed): on a tree built from duplicate-free
transactions, every key of the mined mapping is a strictly ascending tuple of
distinct items — in particular the suffix item of each branch never occurs in
the sub-patterns of its own conditional tree, so appending it and sorting
yields a duplicate-free canonical tuple. -/
theorem C10_keys_strictly_ascending (txns : List (List Item)) (ms : Nat)
    (hnd : ∀ txn ∈ txns, txn.Nodup) (K : List Item) (v : Nat)
    (hK : (K, v) ∈ fpgrowth txns ms) : K.Pairwise (· < ·) := by
  rw [fpgrowth] at hK
  exact (mine_keys_sorted _ _ _ ms (build_tree_nodup txns ms hnd) K v hK).1

/-- Witness for C10 at a concrete input. -/
theorem C10_keys_strictly_ascending_witness :
    ([1, 2] : List Item).Pairwise (· < ·) :=
  C10_keys_strictly_ascending [[1, 2]] 1 (by decide) [1, 2] 1 (by decide)

end FPG
